import Mathlib

/-!
Shallow embedding of the sentence segmentation pipeline in `src/main.rs`
(RUSTParser). Text is modelled as `List Char` with character positions,
following the specification's correctness note (§4.2/§9): the reference
behavior of the boundary scanner is defined over a uniform character
indexing (the Rust code mixes byte offsets with character offsets, which
agree exactly on single-byte text; the spec declares other inputs
undefined). Character classes (`is_alphabetic`, `is_numeric`,
`is_uppercase`) are modelled by their ASCII restrictions, which coincide
with the Unicode classes on every character that survives normalization
(ASCII letters, digits, `.`, `!`, `?`, and whitespace).
-/

set_option maxRecDepth 4000

namespace RustParser

/-- The Unicode `White_Space` code points: the characters matched by the
regex class `\s` used in the normalizer (line 131), by Rust
`char::is_whitespace`, `str::trim`, `str::trim_start` and
`str::split_whitespace`. -/
def wsChars : List Char :=
  ['\t', '\n', '\x0b', '\x0c', '\r', ' ', '\u0085', '\u00a0',
   '\u1680', '\u2000', '\u2001', '\u2002', '\u2003', '\u2004',
   '\u2005', '\u2006', '\u2007', '\u2008', '\u2009', '\u200a',
   '\u2028', '\u2029', '\u202f', '\u205f', '\u3000']

/-- Rust `char::is_whitespace` (also the regex class `\s`). -/
def isWS (c : Char) : Bool := wsChars.contains c

/-- The characters kept by the normalizer: the regex on line 131 is
`[^a-zA-Z0-9\s.!?]` and every match is replaced by the empty string
(line 143), so exactly the letters, digits, whitespace, `.`, `!`, `?`
survive. -/
def allowedChar (c : Char) : Bool :=
  c.isAlpha || c.isDigit || isWS c || c == '.' || c == '!' || c == '?'

/-- Remove trailing characters satisfying `p` (Rust `str::trim_end` with
`p` instantiated to whitespace). -/
def dropTrailing (p : Char → Bool) (l : List Char) : List Char :=
  (l.reverse.dropWhile p).reverse

/-- Rust `str::trim`: strip leading and trailing whitespace. -/
def trimChars (l : List Char) : List Char :=
  dropTrailing isWS (l.dropWhile isWS)

/-- Line 143: `re.replace_all(&line, "").trim().to_string()` — delete every
character outside the allowed set, then trim. -/
def normalize (l : List Char) : List Char :=
  trimChars (l.filter allowedChar)

/-- Helper for `wordCount`: scan the string remembering whether the
previous character was inside a word; each transition from
whitespace-or-start into a non-whitespace character opens a new word. -/
def wordCountAux : List Char → Bool → Nat
  | [], _ => 0
  | c :: r, inWord =>
    if isWS c then wordCountAux r false
    else (if inWord then 0 else 1) + wordCountAux r true

/-- Rust `str::split_whitespace().count()` (line 46): the number of maximal
runs of non-whitespace characters. -/
def wordCount (l : List Char) : Nat := wordCountAux l false

/-- Strip one optional leading sign, as in the grammar of Rust
`f64::from_str`. -/
def dropSign (l : List Char) : List Char :=
  match l with
  | [] => []
  | c :: r => if c == '+' || c == '-' then r else c :: r

/-- Optional exponent suffix of the Rust `f64::from_str` grammar:
empty, or `e`/`E` followed by an optionally signed nonempty digit run. -/
def isExpTail (l : List Char) : Bool :=
  match l with
  | [] => true
  | c :: r =>
    (c == 'e' || c == 'E') &&
      (!(dropSign r).isEmpty && (dropSign r).all Char.isDigit)

/-- Helper for `isNumberBody`: what may follow the leading digit run.
The flag records whether that leading run was nonempty. -/
def isNumberTail (ds : Bool) : List Char → Bool
  | [] => ds
  | c :: r2 =>
    if c == '.' then
      (ds || !(r2.takeWhile Char.isDigit).isEmpty) &&
        isExpTail (r2.dropWhile Char.isDigit)
    else ds && isExpTail (c :: r2)

/-- Unsigned number of the Rust `f64::from_str` grammar:
`Count '.'? Count? Exp?` or `'.' Count Exp?` with `Count ::= Digit+`. -/
def isNumberBody (l : List Char) : Bool :=
  isNumberTail (!(l.takeWhile Char.isDigit).isEmpty) (l.dropWhile Char.isDigit)

/-- Rust `str::parse::<f64>().is_ok()` (line 47), modelled by the grammar
documented for `f64::from_str`:
`Sign? ( 'inf' | 'infinity' | 'nan' | Number )`, case-insensitive on the
three special words. -/
def parsesAsF64 (l : List Char) : Bool :=
  (dropSign l).map Char.toLower == ['i', 'n', 'f'] ||
  (dropSign l).map Char.toLower == ['i', 'n', 'f', 'i', 'n', 'i', 't', 'y'] ||
  (dropSign l).map Char.toLower == ['n', 'a', 'n'] ||
  isNumberBody (dropSign l)

/-- Lines 39-48 of `src/main.rs`: a candidate sentence is valid when its
trimmed form is nonempty, has at least 3 whitespace-separated words, does
not parse as an `f64`, and has length at least 10. -/
def is_valid_sentence (s : List Char) : Bool :=
  if (trimChars s).isEmpty then false
  else
    decide (3 ≤ wordCount (trimChars s)) && !parsesAsF64 (trimChars s) &&
      decide (10 ≤ (trimChars s).length)

/-- Lines 9-37 of `src/main.rs`. The guard `pos >= text.len() - 1` is
rendered as `text.length ≤ pos + 1`; the two agree whenever the text is
nonempty, and the function is only ever applied to a position holding a
character of `text`. -/
def is_sentence_boundary (text : List Char) (pos : Nat) : Bool :=
  if pos == 0 || text.length ≤ pos + 1 then false
  else
    if (text.getD (pos - 1) ' ').isAlpha && (text.getD (pos + 1) ' ').isAlpha
    then false
    else if (text.getD (pos - 1) ' ').isDigit &&
        (text.getD (pos + 1) ' ').isDigit then false
    else if text.getD (pos + 1) ' ' == '.' then false
    else
      isWS (text.getD (pos + 1) ' ') &&
        (match ((text.drop (pos + 1)).dropWhile isWS).head? with
         | some c => c.isUpper || c.isDigit
         | none => false)

/-- The scanning loop of `split_into_sentences` (lines 55-74): walk the
text keeping the current position `i`, the accumulated buffer `cur`, and
the sentences emitted so far `acc`; return the emitted sentences together
with the leftover buffer. The peeked character of the Rust iterator is the
head of the remaining list. -/
def splitAux (text : List Char) :
    List Char → Nat → List Char → List (List Char) →
      List (List Char) × List Char
  | [], _, cur, acc => (acc, cur)
  | c :: rest, i, cur, acc =>
    if c == '.' && is_sentence_boundary text i then
      if is_valid_sentence (cur ++ [c]) then
        splitAux text rest (i + 1) [] (acc ++ [trimChars (cur ++ [c])])
      else splitAux text rest (i + 1) (cur ++ [c]) acc
    else if c == '?' || c == '!' then
      if (match rest with
          | [] => true
          | n :: _ => isWS n || n.isUpper) then
        if is_valid_sentence (cur ++ [c]) then
          splitAux text rest (i + 1) [] (acc ++ [trimChars (cur ++ [c])])
        else splitAux text rest (i + 1) (cur ++ [c]) acc
      else splitAux text rest (i + 1) (cur ++ [c]) acc
    else splitAux text rest (i + 1) (cur ++ [c]) acc

/-- Lines 50-86 of `src/main.rs`: run the scanning loop, then handle the
leftover buffer — emit it when it is a nonempty valid sentence, otherwise
append a space and its trimmed form to the last emitted sentence when one
exists, otherwise discard it. -/
def split_into_sentences (text : List Char) : List (List Char) :=
  let r := splitAux text text 0 [] []
  if !r.2.isEmpty && is_valid_sentence r.2 then r.1 ++ [trimChars r.2]
  else
    match r.1.getLast? with
    | none => r.1
    | some last => r.1.dropLast ++ [last ++ ' ' :: trimChars r.2]

/-- Line 134 of `src/main.rs`: the configured batch capacity. -/
def batch_size : Nat := 1000

/-- One append to the batch accumulator (lines 150-167, ignoring the
sink): push the record, and when the batch reaches the capacity flush it
(record it in the list of issued bulk inserts) and clear the batch. The
state is (current batch, bulk inserts issued so far). -/
def accumStep {α : Type} (bsz : Nat) (st : List α × List (List α))
    (r : α) : List α × List (List α) :=
  if bsz ≤ (st.1 ++ [r]).length then ([], st.2 ++ [st.1 ++ [r]])
  else (st.1 ++ [r], st.2)

/-- Feed a whole record sequence to the batch accumulator, starting from
an empty batch with no flushes issued. -/
def runAccum {α : Type} (bsz : Nat) (rs : List α) :
    List α × List (List α) :=
  rs.foldl (accumStep bsz) ([], [])

/-- Lines 148-178: all bulk inserts issued on a full run over `rs` — the
in-loop flushes plus the terminal flush of the remainder, issued exactly
when the remainder is non-empty. -/
def flushes {α : Type} (bsz : Nat) (rs : List α) : List (List α) :=
  if (runAccum bsz rs).1.isEmpty then (runAccum bsz rs).2
  else (runAccum bsz rs).2 ++ [(runAccum bsz rs).1]

/-- One append to the batch accumulator in the presence of the sink
(lines 150-167): when the batch reaches capacity, `insert_many` is called;
`ok n` tells whether the sink accepts the `n`-th bulk insert of the run.
On failure the error propagates (`?` on line 161): the run aborts carrying
the batches persisted before the failure, and the failed batch is lost.
The state is (current batch, batches persisted so far). -/
def procRecord {α : Type} (bsz : Nat) (ok : Nat → Bool)
    (st : List α × List (List α)) (r : α) :
    Except (List (List α)) (List α × List (List α)) :=
  if bsz ≤ (st.1 ++ [r]).length then
    if ok st.2.length then Except.ok ([], st.2 ++ [st.1 ++ [r]])
    else Except.error st.2
  else Except.ok (st.1 ++ [r], st.2)

/-- The record loop of lines 148-172 with the sink: process records in
order, stopping at the first failed bulk insert. -/
def procAll {α : Type} (bsz : Nat) (ok : Nat → Bool) :
    List α → List α × List (List α) →
      Except (List (List α)) (List α × List (List α))
  | [], st => Except.ok st
  | r :: rest, st =>
    match procRecord bsz ok st r with
    | Except.ok st2 => procAll bsz ok rest st2
    | Except.error e => Except.error e

/-- Lines 148-178 with the sink: the record loop followed by the terminal
flush of a non-empty remainder (lines 174-178, `?` on line 176). The
result is the list of persisted batches, or, on failure, the batches
persisted before the failing insert. -/
def runPipeline {α : Type} (bsz : Nat) (ok : Nat → Bool) (rs : List α) :
    Except (List (List α)) (List (List α)) :=
  match procAll bsz ok rs ([], []) with
  | Except.error e => Except.error e
  | Except.ok st =>
    if st.1.isEmpty then Except.ok st.2
    else if ok st.2.length then Except.ok (st.2 ++ [st.1])
    else Except.error st.2

/-- Claim C1, conditions (a)-(e) rendered from the words of the spec
(§4.2): the position is not first or last; the characters before and
after are not both letters; not both digits; the following character is
not `.`; and the run of whitespace following the position — required to
be there — is itself followed by an uppercase letter or digit. -/
def boundarySpec (text : List Char) (pos : Nat) : Bool :=
  decide (0 < pos) && decide (pos + 1 < text.length) &&
  !((text.getD (pos - 1) ' ').isAlpha && (text.getD (pos + 1) ' ').isAlpha) &&
  !((text.getD (pos - 1) ' ').isDigit && (text.getD (pos + 1) ' ').isDigit) &&
  !(text.getD (pos + 1) ' ' == '.') &&
  !((text.drop (pos + 1)).takeWhile isWS).isEmpty &&
  (match ((text.drop (pos + 1)).dropWhile isWS).head? with
   | some c => c.isUpper || c.isDigit
   | none => false)

/-- Claim C6, the allowed character set exactly as the claim words it:
ASCII letters, digits, space, tab, `.`, `!`, `?`. -/
def claimedC6Set (c : Char) : Bool :=
  c.isAlpha || c.isDigit || c == ' ' || c == '\t' ||
    c == '.' || c == '!' || c == '?'

/-- Claim C10, the simplified validity predicate as the claim words it:
only token count at least 3 and trimmed length at least 10. -/
def is_valid_simplified (s : List Char) : Bool :=
  decide (3 ≤ wordCount (trimChars s)) &&
    decide (10 ≤ (trimChars s).length)

/-! ## Character class facts -/

theorem mem_wsChars_of_isWS {c : Char} (h : isWS c = true) : c ∈ wsChars :=
  List.elem_iff.mp h

theorem isWS_not_alpha {c : Char} (h : isWS c = true) : c.isAlpha = false := by
  have hall : wsChars.all (fun c => !c.isAlpha) = true := by decide
  have := List.all_eq_true.mp hall c (mem_wsChars_of_isWS h)
  simpa using this

theorem isWS_not_digit {c : Char} (h : isWS c = true) : c.isDigit = false := by
  have hall : wsChars.all (fun c => !c.isDigit) = true := by decide
  have := List.all_eq_true.mp hall c (mem_wsChars_of_isWS h)
  simpa using this

theorem isWS_toLower {c : Char} (h : isWS c = true) : c.toLower = c := by
  have hall : wsChars.all (fun c => c.toLower == c) = true := by decide
  have := List.all_eq_true.mp hall c (mem_wsChars_of_isWS h)
  simpa using this

theorem isWS_ne_dot {c : Char} (h : isWS c = true) : (c == '.') = false := by
  have hall : wsChars.all (fun c => !(c == '.')) = true := by decide
  have := List.all_eq_true.mp hall c (mem_wsChars_of_isWS h)
  simpa using this

theorem digit_not_isWS {c : Char} (h : c.isDigit = true) : isWS c = false := by
  by_contra hc
  rw [Bool.not_eq_false] at hc
  rw [isWS_not_digit hc] at h
  exact Bool.false_ne_true h

/-! ## Facts about `dropWhile`, `dropTrailing` and `trimChars` -/

theorem dropWhile_head_false {p : Char → Bool} {l : List Char} {c : Char}
    {t : List Char} (h : l.dropWhile p = c :: t) : p c = false := by
  induction l with
  | nil => simp [List.dropWhile] at h
  | cons a l ih =>
    rw [List.dropWhile_cons] at h
    by_cases hp : p a
    · rw [if_pos hp] at h
      exact ih h
    · rw [if_neg hp] at h
      cases h
      exact Bool.not_eq_true _ |>.mp hp

theorem dropWhile_eq_self_of_head {p : Char → Bool} {l : List Char}
    (h : ∀ c t, l = c :: t → p c = false) : l.dropWhile p = l := by
  cases l with
  | nil => rfl
  | cons a t =>
    rw [List.dropWhile_cons, if_neg]
    rw [h a t rfl]
    exact Bool.false_ne_true

theorem dropTrailing_split (p : Char → Bool) (l : List Char) :
    l = dropTrailing p l ++ (l.reverse.takeWhile p).reverse := by
  have h := congrArg List.reverse (List.takeWhile_append_dropWhile p l.reverse)
  rw [List.reverse_append, List.reverse_reverse] at h
  exact h.symm

theorem dropTrailing_getLast_false {p : Char → Bool} {l : List Char}
    {c : Char} (h : (dropTrailing p l).getLast? = some c) : p c = false := by
  unfold dropTrailing at h
  rw [← List.head?_reverse, List.reverse_reverse] at h
  cases hd : l.reverse.dropWhile p with
  | nil => rw [hd] at h; exact absurd h (by simp)
  | cons a t =>
    rw [hd] at h
    simp only [List.head?] at h
    cases h
    exact dropWhile_head_false hd

theorem dropTrailing_eq_self {p : Char → Bool} {l : List Char}
    (h : ∀ c, l.getLast? = some c → p c = false) : dropTrailing p l = l := by
  unfold dropTrailing
  rw [dropWhile_eq_self_of_head, List.reverse_reverse]
  intro c t hct
  apply h
  rw [← List.head?_reverse, hct]
  rfl

theorem trimChars_nil : trimChars [] = [] := rfl

theorem trimChars_head_false {l : List Char} {c : Char} {t : List Char}
    (h : trimChars l = c :: t) : isWS c = false := by
  unfold trimChars at h
  have hsplit := dropTrailing_split isWS (l.dropWhile isWS)
  rw [h] at hsplit
  exact dropWhile_head_false (l := l) hsplit

theorem trimChars_getLast_false {l : List Char} {c : Char}
    (h : (trimChars l).getLast? = some c) : isWS c = false :=
  dropTrailing_getLast_false h

theorem trimChars_eq_self {l : List Char}
    (h1 : ∀ c t, l = c :: t → isWS c = false)
    (h2 : ∀ c, l.getLast? = some c → isWS c = false) : trimChars l = l := by
  unfold trimChars
  rw [dropWhile_eq_self_of_head h1]
  exact dropTrailing_eq_self h2

theorem trimChars_idem (l : List Char) :
    trimChars (trimChars l) = trimChars l := by
  apply trimChars_eq_self
  · intro c t h
    exact trimChars_head_false h
  · intro c h
    exact trimChars_getLast_false h

theorem trimChars_sublist (l : List Char) :
    List.Sublist (trimChars l) l := by
  unfold trimChars dropTrailing
  have h1 : List.Sublist ((l.dropWhile isWS).reverse.dropWhile isWS)
      (l.dropWhile isWS).reverse := List.dropWhile_sublist _
  have h2 := h1.reverse
  rw [List.reverse_reverse] at h2
  exact h2.trans (List.dropWhile_sublist _)

theorem mem_of_mem_trimChars {l : List Char} {c : Char}
    (h : c ∈ trimChars l) : c ∈ l :=
  (trimChars_sublist l).subset h

/-! ## Claim C5 and claim C6 -/

/-- C5: normalization is idempotent — deleting the disallowed characters
and trimming a second time is a no-op. -/
theorem c5_normalize_idem (s : List Char) :
    normalize (normalize s) = normalize s := by
  unfold normalize
  rw [List.filter_eq_self.mpr, trimChars_idem]
  intro c hc
  exact List.of_mem_filter (mem_of_mem_trimChars hc)

/-- C6 counterexample: the vertical-tab character `\x0b` is kept by the
normalizer (the regex class `\s` matches it), yet it is not in the set
the claim names (letters, digits, space, tab, `.`, `!`, `?`). -/
theorem c6_counterexample :
    normalize ['a', '\x0b', 'b'] = ['a', '\x0b', 'b'] ∧
      '\x0b' ∈ normalize ['a', '\x0b', 'b'] ∧
      claimedC6Set '\x0b' = false := by
  refine ⟨by decide, by decide, by decide⟩

/-- C6 amended: every character of the normalizer output is a letter, a
digit, `.`, `!`, `?`, or whitespace (the full class matched by the regex
`\s`, not merely space and tab); and the output is a subsequence of the
input line — disallowed characters are deleted, never replaced. -/
theorem c6_amended (l : List Char) :
    (∀ c ∈ normalize l, allowedChar c = true) ∧
      List.Sublist (normalize l) l := by
  constructor
  · intro c hc
    exact List.of_mem_filter (mem_of_mem_trimChars hc)
  · exact (trimChars_sublist _).trans (List.filter_sublist l)

/-- C6 witness: the amended claim evaluated on the counterexample
line. -/
theorem c6_witness :
    (∀ c ∈ normalize ['a', '\x0b', 'b'], allowedChar c = true) ∧
      List.Sublist (normalize ['a', '\x0b', 'b']) ['a', '\x0b', 'b'] :=
  c6_amended ['a', '\x0b', 'b']

/-! ## Facts about `wordCount` -/

theorem wordCountAux_cons (c : Char) (r : List Char) (f : Bool) :
    wordCountAux (c :: r) f =
      if isWS c then wordCountAux r false
      else (if f then 0 else 1) + wordCountAux r true := rfl

theorem wordCountAux_append_ws {c : Char} (hc : isWS c = true)
    (b : List Char) :
    ∀ (a : List Char) (f : Bool),
      wordCountAux (a ++ c :: b) f = wordCountAux a f + wordCount b := by
  intro a
  induction a with
  | nil =>
    intro f
    rw [List.nil_append, wordCountAux_cons, if_pos hc]
    show wordCountAux b false = 0 + wordCount b
    rw [Nat.zero_add]
    rfl
  | cons x a ih =>
    intro f
    rw [List.cons_append, wordCountAux_cons, wordCountAux_cons]
    by_cases hx : isWS x = true
    · rw [if_pos hx, if_pos hx, ih]
    · rw [if_neg hx, if_neg hx, ih, Nat.add_assoc]

theorem wordCountAux_no_ws {l : List Char}
    (h : ∀ c ∈ l, isWS c = false) :
    wordCountAux l true = 0 ∧ wordCountAux l false ≤ 1 := by
  induction l with
  | nil => exact ⟨rfl, by simp [wordCountAux]⟩
  | cons c r ih =>
    have hc : isWS c = false := h c (List.mem_cons_self c r)
    have ih2 := ih (fun x hx => h x (List.mem_cons_of_mem c hx))
    constructor
    · simp [wordCountAux, hc, ih2.1]
    · simp [wordCountAux, hc, ih2.1]

theorem exists_ws_of_two_le_wordCount {l : List Char}
    (h : 2 ≤ wordCount l) : ∃ c ∈ l, isWS c = true := by
  by_contra hex
  push_neg at hex
  have hall : ∀ c ∈ l, isWS c = false := by
    intro c hc
    exact Bool.not_eq_true _ |>.mp (hex c hc)
  have := (wordCountAux_no_ws hall).2
  unfold wordCount at h
  omega

/-! ## The `f64` grammar contains no whitespace -/

theorem dropSign_cons (a : Char) (r : List Char) :
    dropSign (a :: r) = if a == '+' || a == '-' then r else a :: r := rfl

theorem mem_dropSign {l : List Char} {c : Char} (h : c ∈ l) :
    c ∈ dropSign l ∨ c = '+' ∨ c = '-' := by
  cases l with
  | nil => cases h
  | cons a r =>
    rw [dropSign_cons]
    by_cases ha : (a == '+' || a == '-') = true
    · rw [if_pos ha]
      rcases List.mem_cons.mp h with hc | hc
      · subst hc
        rcases Bool.or_eq_true _ _ |>.mp ha with h1 | h1
        · exact Or.inr (Or.inl (by simpa using h1))
        · exact Or.inr (Or.inr (by simpa using h1))
      · exact Or.inl hc
    · rw [if_neg ha]
      exact Or.inl h

theorem all_digits_no_ws {l : List Char} (h : l.all Char.isDigit = true) :
    ∀ c ∈ l, isWS c = false := by
  intro c hc
  exact digit_not_isWS (List.all_eq_true.mp h c hc)

theorem takeWhile_digits_no_ws {l : List Char} :
    ∀ c ∈ l.takeWhile Char.isDigit, isWS c = false := by
  intro c hc
  exact digit_not_isWS (List.mem_takeWhile_imp hc)

theorem isExpTail_no_ws {l : List Char} (h : isExpTail l = true) :
    ∀ c ∈ l, isWS c = false := by
  cases l with
  | nil => intro c hc; cases hc
  | cons a r =>
    unfold isExpTail at h
    rw [Bool.and_eq_true] at h
    intro c hc
    rcases List.mem_cons.mp hc with hc | hc
    · subst hc
      rcases Bool.or_eq_true _ _ |>.mp h.1 with h1 | h1
      · rw [show c = 'e' from by simpa using h1]; decide
      · rw [show c = 'E' from by simpa using h1]; decide
    · rcases mem_dropSign hc with hm | hm | hm
      · rw [Bool.and_eq_true] at h
        exact all_digits_no_ws h.2.2 c hm
      · rw [hm]; decide
      · rw [hm]; decide

theorem isNumberTail_cons (ds : Bool) (a : Char) (r2 : List Char) :
    isNumberTail ds (a :: r2) =
      if a == '.' then
        (ds || !(r2.takeWhile Char.isDigit).isEmpty) &&
          isExpTail (r2.dropWhile Char.isDigit)
      else ds && isExpTail (a :: r2) := rfl

theorem isNumberTail_no_ws {ds : Bool} {l : List Char}
    (h : isNumberTail ds l = true) : ∀ c ∈ l, isWS c = false := by
  cases l with
  | nil => intro c hc; cases hc
  | cons a r2 =>
    intro c hc
    rw [isNumberTail_cons] at h
    by_cases ha : (a == '.') = true
    · rw [if_pos ha, Bool.and_eq_true] at h
      rcases List.mem_cons.mp hc with hm | hm
      · rw [hm, show a = '.' from by simpa using ha]
        decide
      · have hsplit := (List.takeWhile_append_dropWhile Char.isDigit r2).symm
        rw [hsplit] at hm
        rcases List.mem_append.mp hm with hm3 | hm3
        · exact takeWhile_digits_no_ws c hm3
        · exact isExpTail_no_ws h.2 c hm3
    · rw [if_neg ha, Bool.and_eq_true] at h
      exact isExpTail_no_ws h.2 c hc

theorem isNumberBody_no_ws {l : List Char} (h : isNumberBody l = true) :
    ∀ c ∈ l, isWS c = false := by
  intro c hc
  have hsplit := (List.takeWhile_append_dropWhile Char.isDigit l).symm
  rw [hsplit] at hc
  rcases List.mem_append.mp hc with hm | hm
  · exact takeWhile_digits_no_ws c hm
  · exact isNumberTail_no_ws h c hm

theorem parsesAsF64_no_ws {l : List Char} (h : parsesAsF64 l = true) :
    ∀ c ∈ l, isWS c = false := by
  intro c hc
  by_contra hcc
  rw [Bool.not_eq_false] at hcc
  rcases mem_dropSign hc with hm | hm | hm
  case inr.inl => rw [hm] at hcc; exact absurd hcc (by decide)
  case inr.inr => rw [hm] at hcc; exact absurd hcc (by decide)
  unfold parsesAsF64 at h
  have hbody : ∀ lit : List Char, (∀ x ∈ lit, isWS x = false) →
      (dropSign l).map Char.toLower = lit → False := by
    intro lit hlit heq
    have : Char.toLower c ∈ lit := heq ▸ List.mem_map_of_mem Char.toLower hm
    rw [isWS_toLower hcc] at this
    rw [hlit c this] at hcc
    exact Bool.false_ne_true hcc
  rcases Bool.or_eq_true _ _ |>.mp h with h1 | h1
  rcases Bool.or_eq_true _ _ |>.mp h1 with h2 | h2
  rcases Bool.or_eq_true _ _ |>.mp h2 with h3 | h3
  · exact hbody ['i', 'n', 'f'] (by decide) (by simpa using h3)
  · exact hbody ['i', 'n', 'f', 'i', 'n', 'i', 't', 'y'] (by decide)
      (by simpa using h3)
  · exact hbody ['n', 'a', 'n'] (by decide) (by simpa using h2)
  · rw [isNumberBody_no_ws h1 c hm] at hcc
    exact Bool.false_ne_true hcc

theorem parsesAsF64_false_of_ws {l : List Char} {c : Char} (hc : c ∈ l)
    (hw : isWS c = true) : parsesAsF64 l = false := by
  by_contra h
  rw [Bool.not_eq_false] at h
  rw [parsesAsF64_no_ws h c hc] at hw
  exact Bool.false_ne_true hw

/-! ## Claim C10 -/

/-- C10: a string whose trimmed form has at least 3 whitespace-separated
tokens never parses as an `f64` (the grammar admits no whitespace), and
therefore the validity predicate coincides with the simplified predicate
that checks only token count and trimmed length. -/
theorem c10_refinement (s : List Char) :
    (3 ≤ wordCount (trimChars s) → parsesAsF64 s = false) ∧
      is_valid_sentence s = is_valid_simplified s := by
  constructor
  · intro h
    obtain ⟨c, hc, hw⟩ := exists_ws_of_two_le_wordCount
      (l := trimChars s) (by omega)
    exact parsesAsF64_false_of_ws (mem_of_mem_trimChars hc) hw
  · unfold is_valid_sentence is_valid_simplified
    by_cases he : (trimChars s).isEmpty
    · rw [if_pos he]
      have : trimChars s = [] := by
        cases h : trimChars s
        · rfl
        · rw [h] at he; exact absurd he (by simp)
      rw [this]
      decide
    · rw [if_neg he]
      by_cases h3 : 3 ≤ wordCount (trimChars s)
      · obtain ⟨c, hc, hw⟩ := exists_ws_of_two_le_wordCount
          (l := trimChars s) (by omega)
        rw [parsesAsF64_false_of_ws hc hw]
        simp [h3]
      · simp [h3]

/-- C10 witness: a three-token string is not parseable as an `f64`, and
the two validity predicates agree on it. -/
theorem c10_witness :
    parsesAsF64 "a b c".toList = false ∧
      is_valid_sentence "a b c".toList = is_valid_simplified "a b c".toList :=
  ⟨(c10_refinement "a b c".toList).1 (by decide),
    (c10_refinement "a b c".toList).2⟩

/-! ## Facts about `is_valid_sentence` -/

theorem is_valid_trimChars (s : List Char) :
    is_valid_sentence (trimChars s) = is_valid_sentence s := by
  unfold is_valid_sentence
  rw [trimChars_idem]

theorem is_valid_ne_nil {s : List Char} (h : is_valid_sentence s = true) :
    s.isEmpty = false := by
  cases s with
  | nil => exact absurd h (by decide)
  | cons a t => rfl

theorem is_valid_props {s : List Char} (hts : trimChars s = s)
    (h : is_valid_sentence s = true) :
    3 ≤ wordCount s ∧ 10 ≤ s.length ∧ parsesAsF64 s = false ∧ s ≠ [] := by
  unfold is_valid_sentence at h
  rw [hts] at h
  by_cases he : s.isEmpty
  · rw [if_pos he] at h
    exact absurd h (by simp)
  · rw [if_neg he] at h
    rw [Bool.and_eq_true, Bool.and_eq_true] at h
    obtain ⟨⟨h3, hp⟩, h10⟩ := h
    refine ⟨by simpa using h3, by simpa using h10, by simpa using hp, ?_⟩
    intro hnil
    subst hnil
    simp at he

/-! ## Claim C1 -/

theorem getD_of_lt {l : List Char} {n : Nat} (h : n < l.length) (d : Char) :
    l.getD n d = l[n] := by
  rw [List.getD_eq_getElem?_getD, List.getElem?_eq_getElem h]
  rfl

/-- C1: on a normalized text, a position holding `.` is treated as a
boundary by `is_sentence_boundary` exactly under the conditions (a)-(e)
of the claim, rendered in `boundarySpec`. -/
theorem c1_boundary_iff (text : List Char) (pos : Nat)
    (_hnorm : ∀ c ∈ text, allowedChar c = true)
    (_hdot : text.get? pos = some '.') :
    is_sentence_boundary text pos = boundarySpec text pos := by
  unfold is_sentence_boundary boundarySpec
  by_cases h0 : pos = 0
  · subst h0
    simp
  by_cases hlt : pos + 1 < text.length
  case neg =>
    have hle : text.length ≤ pos + 1 := Nat.not_lt.mp hlt
    simp [h0, hle, hlt]
  case pos =>
    have hle : ¬text.length ≤ pos + 1 := Nat.not_le.mpr hlt
    have hdrop : text.drop (pos + 1) = text[pos + 1] :: text.drop (pos + 2) :=
      List.drop_eq_getElem_cons hlt
    have hnext : text.getD (pos + 1) ' ' = text[pos + 1] := getD_of_lt hlt ' '
    rw [hdrop, hnext, List.takeWhile_cons, List.dropWhile_cons]
    by_cases hws : isWS text[pos + 1]
    · simp [h0, Nat.pos_of_ne_zero h0, hlt, hle, hws, isWS_not_alpha hws,
        isWS_not_digit hws, isWS_ne_dot hws]
    · rw [if_neg hws, if_neg hws]
      have hws2 : isWS text[pos + 1] = false := by
        exact Bool.not_eq_true _ |>.mp hws
      simp only [hws2, List.isEmpty_nil, Bool.not_true, Bool.false_and,
        Bool.and_false]
      split_ifs <;> simp

/-- C1 witness: in the normalized text `Hi there. Ok`, position 8 holds
`.` and the theorem applies; both sides agree (and the position is in
fact a boundary). -/
theorem c1_witness :
    is_sentence_boundary "Hi there. Ok".toList 8 =
        boundarySpec "Hi there. Ok".toList 8 ∧
      is_sentence_boundary "Hi there. Ok".toList 8 = true :=
  ⟨c1_boundary_iff "Hi there. Ok".toList 8 (by decide) (by decide),
    by decide⟩

/-! ## The segmentation loop invariant -/

theorem splitAux_nil (text : List Char) (i : Nat) (cur : List Char)
    (acc : List (List Char)) : splitAux text [] i cur acc = (acc, cur) := rfl

theorem splitAux_cons (text : List Char) (c : Char) (rest : List Char)
    (i : Nat) (cur : List Char) (acc : List (List Char)) :
    splitAux text (c :: rest) i cur acc =
      if c == '.' && is_sentence_boundary text i then
        if is_valid_sentence (cur ++ [c]) then
          splitAux text rest (i + 1) [] (acc ++ [trimChars (cur ++ [c])])
        else splitAux text rest (i + 1) (cur ++ [c]) acc
      else if c == '?' || c == '!' then
        if (match rest with
            | [] => true
            | n :: _ => isWS n || n.isUpper) then
          if is_valid_sentence (cur ++ [c]) then
            splitAux text rest (i + 1) [] (acc ++ [trimChars (cur ++ [c])])
          else splitAux text rest (i + 1) (cur ++ [c]) acc
        else splitAux text rest (i + 1) (cur ++ [c]) acc
      else splitAux text rest (i + 1) (cur ++ [c]) acc := rfl

theorem splitAux_acc_invariant (text : List Char) :
    ∀ (rest : List Char) (i : Nat) (cur : List Char)
      (acc : List (List Char)),
      (∀ s ∈ acc, trimChars s = s ∧ is_valid_sentence s = true) →
      ∀ s ∈ (splitAux text rest i cur acc).1,
        trimChars s = s ∧ is_valid_sentence s = true := by
  intro rest
  induction rest with
  | nil =>
    intro i cur acc hacc s hs
    rw [splitAux_nil] at hs
    exact hacc s hs
  | cons c rest ih =>
    intro i cur acc hacc s hs
    have hext : ∀ x : List Char, is_valid_sentence x = true →
        ∀ s ∈ acc ++ [trimChars x],
          trimChars s = s ∧ is_valid_sentence s = true := by
      intro x hx t ht
      rcases List.mem_append.mp ht with h | h
      · exact hacc t h
      · rw [List.mem_singleton] at h
        subst h
        exact ⟨trimChars_idem x, by rw [is_valid_trimChars]; exact hx⟩
    rw [splitAux_cons] at hs
    split at hs
    · split at hs
      · rename_i hv
        exact ih _ _ _ (hext _ hv) s hs
      · exact ih _ _ _ hacc s hs
    · split at hs
      · split at hs
        · split at hs
          · rename_i hv
            exact ih _ _ _ (hext _ hv) s hs
          · exact ih _ _ _ hacc s hs
        · exact ih _ _ _ hacc s hs
      · exact ih _ _ _ hacc s hs

/-- Characterization of the final, end-of-input step of
`split_into_sentences` in terms of the scan result. -/
theorem splitCases (text : List Char) :
    (is_valid_sentence (splitAux text text 0 [] []).2 = true →
      split_into_sentences text =
        (splitAux text text 0 [] []).1 ++
          [trimChars (splitAux text text 0 [] []).2]) ∧
    (is_valid_sentence (splitAux text text 0 [] []).2 = false →
      (splitAux text text 0 [] []).1 = [] →
      split_into_sentences text = []) ∧
    (∀ l, is_valid_sentence (splitAux text text 0 [] []).2 = false →
      (splitAux text text 0 [] []).1.getLast? = some l →
      split_into_sentences text =
        (splitAux text text 0 [] []).1.dropLast ++
          [l ++ ' ' :: trimChars (splitAux text text 0 [] []).2]) := by
  refine ⟨?_, ?_, ?_⟩
  · intro hv
    unfold split_into_sentences
    rw [if_pos]
    rw [is_valid_ne_nil hv, hv]
    rfl
  · intro hv hnil
    unfold split_into_sentences
    rw [if_neg (by rw [hv]; simp), hnil]
    rfl
  · intro l hv hlast
    unfold split_into_sentences
    rw [if_neg (by rw [hv]; simp), hlast]

/-- Every member of the segmenter output is either an emitted sentence
(trimmed and valid) or the result of the end-of-input fragment merge:
a trimmed valid sentence, a space, and a trimmed leftover, sitting in the
last position of the output. -/
theorem mem_split_cases {text s : List Char}
    (h : s ∈ split_into_sentences text) :
    (trimChars s = s ∧ is_valid_sentence s = true) ∨
      (∃ a b, s = a ++ ' ' :: b ∧ trimChars a = a ∧
        is_valid_sentence a = true ∧ trimChars b = b ∧
        (split_into_sentences text).getLast? = some s) := by
  have hinv := splitAux_acc_invariant text text 0 [] []
    (by intro x hx; cases hx)
  by_cases hv : is_valid_sentence (splitAux text text 0 [] []).2 = true
  · have heq := (splitCases text).1 hv
    rw [heq] at h
    rcases List.mem_append.mp h with hm | hm
    · exact Or.inl (hinv s hm)
    · rw [List.mem_singleton] at hm
      subst hm
      exact Or.inl ⟨trimChars_idem _, by rw [is_valid_trimChars]; exact hv⟩
  · rw [Bool.not_eq_true] at hv
    cases hlast : (splitAux text text 0 [] []).1.getLast? with
    | none =>
      have heq := (splitCases text).2.1 hv (List.getLast?_eq_none_iff.mp hlast)
      rw [heq] at h
      cases h
    | some l =>
      have heq := (splitCases text).2.2 l hv hlast
      rw [heq] at h
      rcases List.mem_append.mp h with hm | hm
      · exact Or.inl (hinv s (List.mem_of_mem_dropLast hm))
      · rw [List.mem_singleton] at hm
        subst hm
        have hl := hinv l (List.mem_of_getLast?_eq_some hlast)
        refine Or.inr ⟨l, trimChars (splitAux text text 0 [] []).2, rfl,
          hl.1, hl.2, trimChars_idem _, ?_⟩
        rw [heq, List.getLast?_concat]

/-! ## Trimming facts about the merged last sentence -/

theorem head_not_ws_of_trimmed {a : List Char} (hta : trimChars a = a) :
    ∀ c t, a = c :: t → isWS c = false := by
  intro c t hct
  apply trimChars_head_false (l := a)
  rw [hta, hct]

theorem getLast_not_ws_of_trimmed {a : List Char} (hta : trimChars a = a) :
    ∀ c, a.getLast? = some c → isWS c = false := by
  intro c hc
  apply trimChars_getLast_false (l := a)
  rw [hta]
  exact hc

theorem trim_concat_space {a : List Char} (hta : trimChars a = a)
    (hne : a ≠ []) : trimChars (a ++ [' ']) = a := by
  unfold trimChars
  rw [dropWhile_eq_self_of_head]
  · unfold dropTrailing
    rw [List.reverse_append]
    show ((' ' :: a.reverse).dropWhile isWS).reverse = a
    rw [List.dropWhile_cons, if_pos (by decide), dropWhile_eq_self_of_head,
      List.reverse_reverse]
    intro c t hct
    apply getLast_not_ws_of_trimmed hta
    rw [← List.head?_reverse, hct]
    rfl
  · intro c t hct
    cases a with
    | nil => exact absurd rfl hne
    | cons x xs =>
      rw [List.cons_append] at hct
      injection hct with h1 _
      rw [← h1]
      exact head_not_ws_of_trimmed hta x xs rfl

theorem trim_merge {a b : List Char} (hta : trimChars a = a) (hne : a ≠ [])
    (htb : trimChars b = b) (hbne : b ≠ []) :
    trimChars (a ++ ' ' :: b) = a ++ ' ' :: b := by
  apply trimChars_eq_self
  · intro c t hct
    cases a with
    | nil => exact absurd rfl hne
    | cons x xs =>
      rw [List.cons_append] at hct
      injection hct with h1 _
      rw [← h1]
      exact head_not_ws_of_trimmed hta x xs rfl
  · intro c hc
    cases b with
    | nil => exact absurd rfl hbne
    | cons x bt =>
      rw [List.getLast?_append_of_ne_nil a (by simp),
        List.getLast?_cons_cons] at hc
      exact getLast_not_ws_of_trimmed htb c hc

/-! ## Claims C2, C3, C7 and C9 -/

/-- C2: every sentence in the segmenter output — the merged last fragment
included — has at least 3 whitespace-separated tokens, length at least
10, and does not parse as a number. -/
theorem c2_sentence_validity (text s : List Char)
    (hs : s ∈ split_into_sentences text) :
    3 ≤ wordCount s ∧ 10 ≤ s.length ∧ parsesAsF64 s = false := by
  rcases mem_split_cases hs with ⟨hts, hv⟩ | ⟨a, b, hs2, hta, hva, _, _⟩
  · obtain ⟨h3, h10, hp, _⟩ := is_valid_props hts hv
    exact ⟨h3, h10, hp⟩
  · obtain ⟨h3, h10, _, _⟩ := is_valid_props hta hva
    subst hs2
    refine ⟨?_, ?_, ?_⟩
    · have hwc := wordCountAux_append_ws (c := ' ') (by decide) b a false
      unfold wordCount at h3 ⊢
      rw [hwc]
      omega
    · rw [List.length_append, List.length_cons]
      omega
    · exact parsesAsF64_false_of_ws
        (List.mem_append.mpr (Or.inr (List.mem_cons_self _ _))) (by decide)

/-- C2 witness: the theorem applied to a concrete output sentence. -/
theorem c2_witness :
    3 ≤ wordCount "The cat sat.".toList ∧
      10 ≤ "The cat sat.".toList.length ∧
      parsesAsF64 "The cat sat.".toList = false :=
  c2_sentence_validity "The cat sat. The dog ran.".toList
    "The cat sat.".toList (by decide)

/-- C3: at end of input, a valid leftover buffer is emitted as a final
(trimmed) sentence; an invalid leftover is appended — after a separating
space, in trimmed form — to the last emitted sentence when one exists;
and when no sentence was emitted the leftover is discarded and the
output stays empty. -/
theorem c3_end_of_input (text : List Char) :
    (is_valid_sentence (splitAux text text 0 [] []).2 = true →
      split_into_sentences text =
        (splitAux text text 0 [] []).1 ++
          [trimChars (splitAux text text 0 [] []).2]) ∧
    (is_valid_sentence (splitAux text text 0 [] []).2 = false →
      (splitAux text text 0 [] []).1 = [] →
      split_into_sentences text = []) ∧
    (∀ l, is_valid_sentence (splitAux text text 0 [] []).2 = false →
      (splitAux text text 0 [] []).1.getLast? = some l →
      split_into_sentences text =
        (splitAux text text 0 [] []).1.dropLast ++
          [l ++ ' ' :: trimChars (splitAux text text 0 [] []).2]) :=
  splitCases text

/-- C3 witness: on `The cat sat well!` the scan ends with an empty
(hence invalid) buffer and one emitted sentence, and the fragment-merge
branch of the theorem computes the output. -/
theorem c3_witness :
    split_into_sentences "The cat sat well!".toList =
      ["The cat sat well! ".toList] :=
  (c3_end_of_input "The cat sat well!".toList).2.2
    "The cat sat well!".toList (by decide) (by decide)

/-- C7 counterexample: on the input `The cat sat well!` the segmenter
output contains the string `The cat sat well! ` with a trailing space,
which is not trimmed. -/
theorem c7_counterexample :
    "The cat sat well! ".toList ∈
        split_into_sentences "The cat sat well!".toList ∧
      trimChars "The cat sat well! ".toList ≠ "The cat sat well! ".toList :=
  ⟨by decide, by decide⟩

/-- C7 amended: every sentence in the segmenter output is non-empty, and
is trimmed of leading and trailing whitespace — except that the last
sentence may consist of its trimmed form followed by exactly one space,
which happens when the end-of-input fragment merge appends a leftover
that trims to nothing. -/
theorem c7_amended (text s : List Char) (hs : s ∈ split_into_sentences text) :
    s ≠ [] ∧ (trimChars s = s ∨
      ((split_into_sentences text).getLast? = some s ∧
        s = trimChars s ++ [' '])) := by
  rcases mem_split_cases hs with ⟨hts, hv⟩ | ⟨a, b, hs2, hta, hva, htb, hlast⟩
  · obtain ⟨_, _, _, hne⟩ := is_valid_props hts hv
    exact ⟨hne, Or.inl hts⟩
  · obtain ⟨_, _, _, hne⟩ := is_valid_props hta hva
    subst hs2
    constructor
    · cases a with
      | nil => exact absurd rfl hne
      | cons x xs => simp
    · cases hb : b with
      | nil =>
        subst hb
        right
        refine ⟨hlast, ?_⟩
        rw [trim_concat_space hta hne]
      | cons x bt =>
        subst hb
        left
        exact trim_merge hta hne htb (by simp)

/-- C7 witness: the amended claim applied to a concrete output
sentence — both trimmed sentences of scenario A. -/
theorem c7_witness :
    "The dog ran.".toList ≠ ([] : List Char) ∧
      (trimChars "The dog ran.".toList = "The dog ran.".toList ∨
        ((split_into_sentences "The cat sat. The dog ran.".toList).getLast? =
            some "The dog ran.".toList ∧
          "The dog ran.".toList = trimChars "The dog ran.".toList ++ [' '])) :=
  c7_amended "The cat sat. The dog ran.".toList "The dog ran.".toList
    (by decide)

/-- C9: at the failing input the segmenter emits two sentences — which,
per the claim, the secondary file sink would each have to write — while
the per-sentence write call in `main` (line 158) is commented out and the
periodic flush statement (line 166) is malformed, so no per-sentence
write ever happens. -/
theorem c9_failing_eval :
    split_into_sentences "The cat sat. The dog ran.".toList =
      ["The cat sat.".toList, "The dog ran.".toList] := by
  decide

/-! ## The batch accumulator -/

theorem accumStep_pair {α : Type} (b : Nat) (cur : List α)
    (fs : List (List α)) (r : α) :
    accumStep b (cur, fs) r =
      if b ≤ (cur ++ [r]).length then ([], fs ++ [cur ++ [r]])
      else (cur ++ [r], fs) := rfl

theorem foldl_accum_flatten {α : Type} (b : Nat) :
    ∀ (rs cur : List α) (fs : List (List α)),
      ((rs.foldl (accumStep b) (cur, fs)).2).flatten ++
          (rs.foldl (accumStep b) (cur, fs)).1 =
        fs.flatten ++ (cur ++ rs) := by
  intro rs
  induction rs with
  | nil =>
    intro cur fs
    simp
  | cons r rest ih =>
    intro cur fs
    rw [List.foldl_cons, accumStep_pair]
    by_cases hble : b ≤ (cur ++ [r]).length
    · rw [if_pos hble, ih]
      simp
    · rw [if_neg hble, ih]
      simp

theorem foldl_accum_len {α : Type} {b : Nat} (hb : 0 < b) :
    ∀ (rs cur : List α) (fs : List (List α)),
      cur.length < b → (∀ x ∈ fs, x.length = b) →
      (∀ x ∈ (rs.foldl (accumStep b) (cur, fs)).2, x.length = b) ∧
        ((rs.foldl (accumStep b) (cur, fs)).1).length =
          (cur.length + rs.length) % b ∧
        ((rs.foldl (accumStep b) (cur, fs)).2).length =
          fs.length + (cur.length + rs.length) / b := by
  intro rs
  induction rs with
  | nil =>
    intro cur fs hcur hfs
    refine ⟨hfs, ?_, ?_⟩
    · simp [Nat.mod_eq_of_lt hcur]
    · simp [Nat.div_eq_of_lt hcur]
  | cons r rest ih =>
    intro cur fs hcur hfs
    rw [List.foldl_cons, accumStep_pair]
    by_cases hble : b ≤ (cur ++ [r]).length
    · rw [if_pos hble]
      have hlen : cur.length + 1 = b := by
        rw [List.length_append] at hble
        simp at hble
        omega
      have hfs2 : ∀ x ∈ fs ++ [cur ++ [r]], x.length = b := by
        intro x hx
        rcases List.mem_append.mp hx with h | h
        · exact hfs x h
        · rw [List.mem_singleton] at h
          subst h
          rw [List.length_append]
          simpa using hlen
      obtain ⟨h1, h2, h3⟩ := ih [] (fs ++ [cur ++ [r]]) (by simpa using hb) hfs2
      have harith : cur.length + (r :: rest).length = rest.length + b := by
        rw [List.length_cons]
        omega
      refine ⟨h1, ?_, ?_⟩
      · rw [h2, harith, Nat.add_mod_right, List.length_nil, Nat.zero_add]
      · rw [h3, harith, Nat.add_div_right _ hb, List.length_append,
          List.length_nil, Nat.zero_add]
        simp
        omega
    · rw [if_neg hble]
      obtain ⟨h1, h2, h3⟩ := ih (cur ++ [r]) fs (Nat.lt_of_not_le hble) hfs
      have harith : (cur ++ [r]).length + rest.length =
          cur.length + (r :: rest).length := by
        rw [List.length_append, List.length_cons]
        simp
        omega
      refine ⟨h1, ?_, ?_⟩
      · rw [h2, harith]
      · rw [h3, harith]

/-! ## Claim C4 -/

/-- C4: feeding any record sequence to the batch accumulator, a bulk
insert is issued exactly each time the batch reaches the capacity `b` —
there are `rs.length / b` of them, each carrying exactly `b` records —
the remainder batch holds `rs.length % b` records, the concatenation of
all issued flushes (terminal flush included) restores the input in
arrival order, and the terminal flush exists exactly when the remainder
is non-empty. -/
theorem c4_batching {α : Type} (b : Nat) (rs : List α) (hb : 0 < b) :
    (runAccum b rs).2.length = rs.length / b ∧
    (∀ x ∈ (runAccum b rs).2, x.length = b) ∧
    (runAccum b rs).1.length = rs.length % b ∧
    (flushes b rs).flatten = rs ∧
    ((runAccum b rs).1 = [] → flushes b rs = (runAccum b rs).2) ∧
    ((runAccum b rs).1 ≠ [] →
      flushes b rs = (runAccum b rs).2 ++ [(runAccum b rs).1]) := by
  have hj := foldl_accum_flatten b rs [] []
  obtain ⟨h1, h2, h3⟩ := foldl_accum_len hb rs [] [] (by simpa using hb)
    (by intro x hx; cases hx)
  refine ⟨by simpa using h3, h1, by simpa using h2, ?_, ?_, ?_⟩
  · unfold flushes
    by_cases he : (runAccum b rs).1.isEmpty
    · rw [if_pos he]
      have hnil : (runAccum b rs).1 = [] := List.isEmpty_iff.mp he
      unfold runAccum at hnil ⊢
      rw [hnil] at hj
      simpa using hj
    · rw [if_neg he]
      unfold runAccum
      rw [List.flatten_append]
      simpa using hj
  · intro h
    unfold flushes
    rw [if_pos (List.isEmpty_iff.mpr h)]
  · intro h
    unfold flushes
    rw [if_neg]
    simpa using h

/-- C4 witness: the theorem at the default capacity 1000 on a short
record sequence — a single terminal flush restores the input. -/
theorem c4_witness :
    (flushes batch_size [0, 1, 2]).flatten = [0, 1, 2] :=
  (c4_batching batch_size [0, 1, 2] (by decide)).2.2.2.1

/-! ## The pipeline with the sink -/

theorem procRecord_pair {α : Type} (b : Nat) (ok : Nat → Bool)
    (cur : List α) (P : List (List α)) (r : α) :
    procRecord b ok (cur, P) r =
      if b ≤ (cur ++ [r]).length then
        if ok P.length then Except.ok ([], P ++ [cur ++ [r]])
        else Except.error P
      else Except.ok (cur ++ [r], P) := rfl

theorem procAll_nil {α : Type} (b : Nat) (ok : Nat → Bool)
    (st : List α × List (List α)) :
    procAll b ok [] st = Except.ok st := rfl

theorem procAll_cons {α : Type} (b : Nat) (ok : Nat → Bool) (r : α)
    (rest : List α) (st : List α × List (List α)) :
    procAll b ok (r :: rest) st =
      match procRecord b ok st r with
      | Except.ok st2 => procAll b ok rest st2
      | Except.error e => Except.error e := rfl

theorem foldl_accum_snd_ext {α : Type} (b : Nat) :
    ∀ (rs cur : List α) (fs : List (List α)),
      ∃ new, (rs.foldl (accumStep b) (cur, fs)).2 = fs ++ new := by
  intro rs
  induction rs with
  | nil =>
    intro cur fs
    exact ⟨[], by simp⟩
  | cons r rest ih =>
    intro cur fs
    rw [List.foldl_cons, accumStep_pair]
    by_cases hble : b ≤ (cur ++ [r]).length
    · rw [if_pos hble]
      obtain ⟨new, hnew⟩ := ih [] (fs ++ [cur ++ [r]])
      exact ⟨[cur ++ [r]] ++ new, by rw [hnew, List.append_assoc]⟩
    · rw [if_neg hble]
      exact ih (cur ++ [r]) fs

theorem procAll_spec {α : Type} {b : Nat} (ok : Nat → Bool) (hb : 0 < b) :
    ∀ (rs cur : List α) (P : List (List α)), cur.length < b →
      ((∀ j, P.length ≤ j →
          j < ((rs.foldl (accumStep b) (cur, P)).2).length → ok j = true) →
        procAll b ok rs (cur, P) =
          Except.ok (rs.foldl (accumStep b) (cur, P))) ∧
      (∀ k, P.length ≤ k →
        k < ((rs.foldl (accumStep b) (cur, P)).2).length →
        (∀ j, P.length ≤ j → j < k → ok j = true) → ok k = false →
        procAll b ok rs (cur, P) =
          Except.error (((rs.foldl (accumStep b) (cur, P)).2).take k)) := by
  intro rs
  induction rs with
  | nil =>
    intro cur P hcur
    constructor
    · intro _
      rfl
    · intro k hPk hklt _ _
      rw [List.foldl_nil] at hklt
      simp at hklt
      omega
  | cons r rest ih =>
    intro cur P hcur
    by_cases hble : b ≤ (cur ++ [r]).length
    · have hfold : (r :: rest).foldl (accumStep b) (cur, P) =
          rest.foldl (accumStep b) ([], P ++ [cur ++ [r]]) := by
        rw [List.foldl_cons, accumStep_pair, if_pos hble]
      have hplen : P.length <
          ((rest.foldl (accumStep b) ([], P ++ [cur ++ [r]])).2).length := by
        obtain ⟨new, hnew⟩ := foldl_accum_snd_ext b rest [] (P ++ [cur ++ [r]])
        rw [hnew, List.length_append, List.length_append]
        simp
        omega
      constructor
      · intro hok
        have hokP : ok P.length = true := by
          apply hok P.length (Nat.le_refl _)
          rw [hfold]
          exact hplen
        rw [procAll_cons, procRecord_pair, if_pos hble, if_pos hokP, hfold]
        apply (ih [] (P ++ [cur ++ [r]]) (by simpa using hb)).1
        intro j hj hjlt
        apply hok j
        · rw [List.length_append] at hj
          simp at hj
          omega
        · rw [hfold]
          exact hjlt
      · intro k hPk hklt hjok hkfalse
        by_cases hkP : k = P.length
        · subst hkP
          rw [procAll_cons, procRecord_pair, if_pos hble,
            if_neg (by rw [hkfalse]; exact Bool.false_ne_true)]
          obtain ⟨new, hnew⟩ :=
            foldl_accum_snd_ext b rest [] (P ++ [cur ++ [r]])
          have h2 : ((r :: rest).foldl (accumStep b) (cur, P)).2 =
              P ++ ([cur ++ [r]] ++ new) := by
            rw [hfold, hnew, List.append_assoc]
          rw [h2, List.take_left]
        · have hkgt : P.length < k := by
            omega
          have hokP : ok P.length = true := hjok P.length (Nat.le_refl _) hkgt
          rw [procAll_cons, procRecord_pair, if_pos hble, if_pos hokP]
          rw [hfold] at hklt ⊢
          apply (ih [] (P ++ [cur ++ [r]]) (by simpa using hb)).2 k
          · rw [List.length_append]
            simp
            omega
          · exact hklt
          · intro j hj hjlt
            apply hjok j _ hjlt
            rw [List.length_append] at hj
            omega
          · exact hkfalse
    · have hfold : (r :: rest).foldl (accumStep b) (cur, P) =
          rest.foldl (accumStep b) (cur ++ [r], P) := by
        rw [List.foldl_cons, accumStep_pair, if_neg hble]
      constructor
      · intro hok
        rw [procAll_cons, procRecord_pair, if_neg hble, hfold]
        apply (ih (cur ++ [r]) P (Nat.lt_of_not_le hble)).1
        intro j hj hjlt
        apply hok j hj
        rw [hfold]
        exact hjlt
      · intro k hPk hklt hjok hkfalse
        rw [procAll_cons, procRecord_pair, if_neg hble]
        rw [hfold] at hklt ⊢
        exact (ih (cur ++ [r]) P (Nat.lt_of_not_le hble)).2 k hPk hklt
          hjok hkfalse

/-! ## Claim C8 -/

theorem runPipeline_eq_of_error {α : Type} {b : Nat} {ok : Nat → Bool}
    {rs : List α} {e : List (List α)}
    (h : procAll b ok rs ([], []) = Except.error e) :
    runPipeline b ok rs = Except.error e := by
  unfold runPipeline
  rw [h]

theorem runPipeline_eq_of_ok {α : Type} {b : Nat} {ok : Nat → Bool}
    {rs : List α} {st : List α × List (List α)}
    (h : procAll b ok rs ([], []) = Except.ok st) :
    runPipeline b ok rs =
      (if st.1.isEmpty then Except.ok st.2
       else if ok st.2.length then Except.ok (st.2 ++ [st.1])
       else Except.error st.2) := by
  unfold runPipeline
  rw [h]

/-- C8: when the sink rejects the `k`-th bulk insert of the run —
wherever that falls, in-loop or at the terminal flush — the pipeline
aborts with an error carrying exactly the batches persisted before the
failure (`(flushes b rs).take k`): the failed batch is neither retried
nor persisted, no later record reaches the sink, and the earlier flushes
stay persisted. -/
theorem c8_failure_propagation {α : Type} (b : Nat) (ok : Nat → Bool)
    (rs : List α) (k : Nat) (hb : 0 < b) (hok : ∀ j, j < k → ok j = true)
    (hk : ok k = false) (hlt : k < (flushes b rs).length) :
    runPipeline b ok rs = Except.error ((flushes b rs).take k) := by
  have hspec := procAll_spec ok hb rs [] [] (by simpa using hb)
  by_cases hkfull : k < ((rs.foldl (accumStep b) ([], [])).2).length
  · have herr := hspec.2 k (by simp) hkfull (fun j _ hj => hok j hj) hk
    rw [runPipeline_eq_of_error herr]
    suffices hsuf : ((rs.foldl (accumStep b) ([], [])).2).take k =
        (flushes b rs).take k by
      rw [hsuf]
    unfold flushes runAccum
    by_cases he : ((rs.foldl (accumStep b) ([], [])).1).isEmpty
    · rw [if_pos he]
    · rw [if_neg he, List.take_append_of_le_length (Nat.le_of_lt hkfull)]
  · have hne : ((rs.foldl (accumStep b) ([], [])).1).isEmpty = false := by
      by_contra hc
      rw [Bool.not_eq_false] at hc
      unfold flushes runAccum at hlt
      rw [if_pos hc] at hlt
      omega
    have hflush : flushes b rs =
        (rs.foldl (accumStep b) ([], [])).2 ++
          [(rs.foldl (accumStep b) ([], [])).1] := by
      unfold flushes runAccum
      rw [if_neg (by rw [hne]; exact Bool.false_ne_true)]
    have hklen : k = ((rs.foldl (accumStep b) ([], [])).2).length := by
      rw [hflush, List.length_append] at hlt
      simp at hlt
      omega
    have hokall := hspec.1 (fun j _ hj => hok j (by omega))
    rw [runPipeline_eq_of_ok hokall,
      if_neg (by rw [hne]; exact Bool.false_ne_true),
      if_neg (by rw [← hklen, hk]; exact Bool.false_ne_true),
      hflush, hklen, List.take_left]

/-- C8 witness: with capacity 2 and five records, the sink rejecting the
second bulk insert aborts the run with exactly the first flush
persisted. -/
theorem c8_witness :
    runPipeline 2 (fun j => decide (j ≠ 1)) [0, 1, 2, 3, 4] =
      Except.error [[0, 1]] :=
  (c8_failure_propagation 2 (fun j => decide (j ≠ 1)) [0, 1, 2, 3, 4] 1
      (by decide) (by decide) (by decide) (by decide)).trans
    (congrArg Except.error (by decide))

end RustParser
